import Mathlib

/-!
Shallow embedding of the scb-static download pipeline
(`src/scb_dl/mcpp.py`, `src/scb_dl/utils.py`, `src/scb_dl/download_data.py`)
and proofs of the specification's claims about it.
-/

/-! ## Definitions: `mcpp.py` -/

/-- The inner helper `product(inds)` of `maximize_constrained_partial_product`
in `src/scb_dl/mcpp.py`: `p = 1; for i in inds: p *= values[i]`.  Every call
site passes in-range indices; an out-of-range read (a Python `IndexError`) is
given the default `0`. -/
def prodInds (values : List ℕ) (inds : List ℕ) : ℕ :=
  inds.foldl (fun p i => p * values.getD i 0) 1

/-- `itertools.combinations(l, r)`: all length-`r` subsequences of `l`, in the
lexicographic order produced by `itertools.combinations`. -/
def combinations : ℕ → List ℕ → List (List ℕ)
  | 0, _ => [[]]
  | _ + 1, [] => []
  | r + 1, x :: xs =>
      ((combinations r xs).map (fun c => x :: c)) ++ combinations (r + 1) xs

/-- The comparison used by `sorted(..., key=lambda pc: pc[1])` in
`maximize_constrained_partial_product`: compare candidate pairs by their
second component, the pinned product. -/
def mcppLE (a b : List ℕ × ℕ) : Prop := a.2 ≤ b.2

instance : DecidableRel mcppLE :=
  fun a b => inferInstanceAs (Decidable (a.2 ≤ b.2))

instance : IsTotal (List ℕ × ℕ) mcppLE :=
  ⟨fun a b => Nat.le_total a.2 b.2⟩

instance : IsTrans (List ℕ × ℕ) mcppLE :=
  ⟨fun _ _ _ h h2 => Nat.le_trans h h2⟩

/-- The generator expression inside `maximize_constrained_partial_product`:
all pairs `(c, p)` where `c` ranges over combinations of indices of size
`r = 1, ..., len(values)` (increasing size, lexicographic within a size),
`p = product(c)`, kept when `bound * p >= allprod`. -/
def mcppCandidates (values : List ℕ) (bound : ℕ) : List (List ℕ × ℕ) :=
  let n := values.length
  let allprod := prodInds values (List.range n)
  (List.range n).flatMap (fun r0 =>
    (combinations (r0 + 1) (List.range n)).filterMap (fun c =>
      let p := prodInds values c
      if allprod ≤ bound * p then some (c, p) else none))

/-- `maximize_constrained_partial_product(values, bound)` from
`src/scb_dl/mcpp.py`.  The Python tuple result is modelled as a list of
indices (`()` becomes `[]`); `none` models the `IndexError` raised by `s[0]`
when the candidate list is empty.  Python's stable `sorted` is modelled by the
stable `List.insertionSort`. -/
def maximize_constrained_partial_product (values : List ℕ) (bound : ℕ) :
    Option (List ℕ) :=
  let allprod := prodInds values (List.range values.length)
  if allprod ≤ bound then some []
  else (((mcppCandidates values bound).insertionSort mcppLE).head?).map Prod.fst

/-- The spec's `Π(C[i] for i not in S)`: product of the cardinalities at the
indices of `values` that are not in `S`. -/
def complProd (values : List ℕ) (S : List ℕ) : ℕ :=
  prodInds values ((List.range values.length).filter (fun i => decide (i ∉ S)))

/-! ## Definitions: `throttle` from `utils.py` -/

/-- The deque `call_times = deque(maxlen=max_calls_in_interval)` after
appending `t`: Python's bounded deque drops the oldest element when full. -/
def pushQ (N : ℕ) (q : List ℚ) (t : ℚ) : List ℚ :=
  (q ++ [t]).drop ((q ++ [t]).length - N)

/-- The while-loop condition of the `throttle` wrapper in
`src/scb_dl/utils.py` (true means keep sleeping): the queue is full and the
oldest timestamp is younger than `interval`, or the queue is non-empty and the
newest timestamp is younger than `minSpacing`.  `q` is the deque, oldest
first; `now` is the value of `time.time()`.  The defaults `headD 0` and
`getLastD 0` are never reached for `1 ≤ N`. -/
def throttleGuard (N : ℕ) (interval minSpacing : ℚ) (q : List ℚ) (now : ℚ) : Bool :=
  ((q.length == N) && decide (now - q.headD 0 ≤ interval)) ||
    (!q.isEmpty && decide (now - q.getLastD 0 ≤ minSpacing))

/-- Admissibility of a trace of call timestamps through the `throttle`
wrapper starting from deque `q`: each call is admitted only when the guard is
false (the check-and-append step is atomic on the asyncio event loop, so
concurrent callers serialize here), after which its timestamp is pushed. -/
def throttleTrace (N : ℕ) (interval minSpacing : ℚ) : List ℚ → List ℚ → Bool
  | _, [] => true
  | q, t :: ts =>
    !(throttleGuard N interval minSpacing q t) &&
      throttleTrace N interval minSpacing (pushQ N q t) ts

/-! ## Definitions: `retry` from `utils.py` -/

/-- Outcome of the retry wrapper from `src/scb_dl/utils.py`: a successful
value, or one of the two `RuntimeError`s (timeout reached / maximum number of
retries reached), each carrying the latest exception. -/
inductive RetryResult (E A : Type) where
  | ok : A → RetryResult E A
  | timeoutExceeded : E → RetryResult E A
  | retryExhausted : E → RetryResult E A
deriving DecidableEq

/-- The `while True` loop of the `retry` wrapper, from attempt index `k`
(Python's `tries`).  `op k` is the k-th invocation of the wrapped coroutine;
`clock k` is the value of `time.time()` in the timeout check after failed
attempt `k`; `start` is `time.time()` at entry.  The result is paired with
the total number of invocations of `op`.  The fixed sleep between attempts
only consumes time and is reflected in `clock`. -/
def retryGo (op : ℕ → Except E A) (clock : ℕ → ℚ) (start timeout : ℚ)
    (maxTries : ℕ) (k : ℕ) : RetryResult E A × ℕ :=
  match op k with
  | .ok a => (.ok a, k + 1)
  | .error e =>
    if start + timeout ≤ clock k then (.timeoutExceeded e, k + 1)
    else if maxTries ≤ k + 1 then (.retryExhausted e, k + 1)
    else retryGo op clock start timeout maxTries (k + 1)
termination_by maxTries - k
decreasing_by omega

/-- `retry(wait_time, max_tries, timeout)` applied to `op`: run the retry
loop from `tries = 0`. -/
def runWithRetry (op : ℕ → Except E A) (clock : ℕ → ℚ) (start timeout : ℚ)
    (maxTries : ℕ) : RetryResult E A × ℕ :=
  retryGo op clock start timeout maxTries 0

/-! ## Definitions: `get_data` from `download_data.py` -/

structure Variable where
  code : String
  values : List String
  valueTexts : List String
deriving DecidableEq

structure Info where
  vars : List Variable
deriving DecidableEq

def MAX_CELLS : ℕ := 107762

def keyVars (info : Info) : List Variable :=
  info.vars.filter (fun v => v.code != "ContentsCode")

def keyCards (info : Info) : List ℕ :=
  (keyVars info).map (fun v => v.values.length)

def valueFields (info : Info) : Option ℕ :=
  (info.vars.find? (fun v => v.code == "ContentsCode")).map
    (fun v => v.values.length)

def tableRows (info : Info) : ℕ := (keyCards info).prod

def tableSize (info : Info) (vf : ℕ) : ℕ := vf * tableRows info

def cartProd {α : Type} : List (List α) → List (List α)
  | [] => [[]]
  | l :: ls => l.flatMap (fun x => (cartProd ls).map (fun rest => x :: rest))



def batchedGo {α : Type} (n : ℕ) : List α → List (List α)
  | [] => []
  | x :: xs => (x :: xs.take n) :: batchedGo n (xs.drop n)
termination_by l => l.length
decreasing_by simp only [List.length_drop, List.length_cons]; omega

def batched {α : Type} (l : List α) : ℕ → List (List α)
  | 0 => []
  | n + 1 => batchedGo n l

def dimsToIterate (info : Info) (vf : ℕ) : Option (List ℕ) :=
  if MAX_CELLS < tableSize info vf then
    maximize_constrained_partial_product (keyCards info) (MAX_CELLS / vf)
  else some []

def codesToIterate (info : Info) (dims : List ℕ) : List String :=
  dims.map (fun d => ((keyVars info).map (fun v => v.code)).getD d "")

def valuesForCode (info : Info) (code : String) : List String :=
  ((info.vars.find? (fun v => v.code == code)).map (fun v => v.values)).getD []

def pinAssignments (info : Info) (dims : List ℕ) : List (List String) :=
  cartProd ((codesToIterate info dims).map (valuesForCode info))

inductive Emitted where
  | noneSentinel : Emitted
  | schemaOnce : Emitted
  | rowBatch : ℕ → Emitted
deriving DecidableEq

structure RunResult where
  emitted : List Emitted
  calls : List (List String)
deriving DecidableEq

def get_data (info : Info) (fetchRows : List String → ℕ)
    (maxDownloadTime : ℚ) : Option RunResult :=
  match valueFields info with
  | none => none
  | some vf =>
    match dimsToIterate info vf with
    | none => none
    | some dims =>
      let asgns := pinAssignments info dims
      if maxDownloadTime < (tableSize info vf : ℚ) / ((MAX_CELLS : ℚ) * 1) then
        some ⟨[.noneSentinel], []⟩
      else
        let groups := batched asgns 90
        some ⟨(if groups.isEmpty then [] else [Emitted.schemaOnce]) ++
            groups.map (fun g => Emitted.rowBatch ((g.map fetchRows).sum)),
          asgns⟩

def totalRows (r : RunResult) : ℕ :=
  (r.emitted.map (fun e => match e with | .rowBatch n => n | _ => 0)).sum

/-- Concrete example table descriptor: one content dimension with one field
and key dimensions of cardinalities 2 and 3. -/
def infoEx : Info :=
  ⟨[⟨"ContentsCode", ["v1"], ["value one"]⟩,
    ⟨"A", ["a1", "a2"], ["A one", "A two"]⟩,
    ⟨"B", ["b1", "b2", "b3"], ["B one", "B two", "B three"]⟩]⟩

/-! ## Definitions: `parse_value` from `download_data.py` -/

/-- A response column: its dimension code and its type tag
(`c` content, `t` time, other). -/
structure Column where
  code : String
  type : String
deriving DecidableEq

/-- Result of `parse_value`: Python `None` for the missing-data sentinel, the
result of `ast.literal_eval` on a content cell (kept symbolic), a parsed
integer, a looked-up label string, or a `KeyError` from the lookup dict. -/
inductive PyValue where
  | null : PyValue
  | literalEval : String → PyValue
  | intVal : Int → PyValue
  | strVal : String → PyValue
  | keyError : PyValue
deriving DecidableEq

/-- Decimal value of a digit string. -/
def digitsVal (cs : List Char) : ℕ :=
  cs.foldl (fun n c => 10 * n + (c.toNat - 48)) 0

/-- Integer shape accepted by Python `int(str)`: one or more ASCII digits. -/
def pyIntShape (cs : List Char) : Bool :=
  !cs.isEmpty && cs.all (fun c => c.isDigit)

/-- Python `int(value)` on a string: `some` for an optional sign followed by
digits, `none` for the `ValueError` otherwise.  (Surrounding whitespace and
underscore separators accepted by CPython are not modelled; no call site
relies on them.) -/
def pyInt? (s : String) : Option Int :=
  match s.toList with
  | '-' :: cs => if pyIntShape cs then some (-(digitsVal cs : Int)) else none
  | '+' :: cs => if pyIntShape cs then some ((digitsVal cs : Int)) else none
  | cs => if pyIntShape cs then some ((digitsVal cs : Int)) else none

/-- `parse_value(lookup, info, column, value)` from
`src/scb_dl/download_data.py` (the older revision `download_data.py` computes
the same result with `values.index`/`valueTexts`): the sentinel `..` becomes
null; content columns go to `ast.literal_eval`; time columns try `int(value)`
and on failure fall through to the per-dimension lookup
`_lookup[column.code][value]`, whose miss is a `KeyError`. -/
def parse_value (lookup : String → String → Option String)
    (column : Column) (value : String) : PyValue :=
  if value = ".." then .null
  else if column.type = "c" then .literalEval value
  else
    match (if column.type = "t" then pyInt? value else none) with
    | some n => .intVal n
    | none =>
      match lookup column.code value with
      | some t => .strVal t
      | none => .keyError

/-- Example lookup table: dimension `Tid` maps raw code `kvartal1` to the
label `Q1`. -/
def lookupEx : String → String → Option String := fun c v =>
  if c = "Tid" ∧ v = "kvartal1" then some "Q1" else none

/-! ## Lemmas about the partitioner -/

theorem prodInds_eq_prod (values inds : List ℕ) :
    prodInds values inds = (inds.map (fun i => values.getD i 0)).prod := by
  rw [prodInds, List.prod_eq_foldl, List.foldl_map]

theorem mem_combinations_sublist_length :
    ∀ (r : ℕ) (l : List ℕ) (c : List ℕ),
      c ∈ combinations r l → c.Sublist l ∧ c.length = r
  | 0, l, c, h => by
    simp only [combinations, List.mem_singleton] at h
    subst h
    exact ⟨List.nil_sublist l, rfl⟩
  | r + 1, [], c, h => by simp [combinations] at h
  | r + 1, x :: xs, c, h => by
    simp only [combinations, List.mem_append, List.mem_map] at h
    rcases h with ⟨c', hc', rfl⟩ | h
    · obtain ⟨hs, hl⟩ := mem_combinations_sublist_length r xs c' hc'
      exact ⟨hs.cons₂ x, by simp [hl]⟩
    · obtain ⟨hs, hl⟩ := mem_combinations_sublist_length (r + 1) xs c h
      exact ⟨hs.trans (List.sublist_cons_self x xs), hl⟩

theorem mem_combinations_of_sublist {c l : List ℕ} (h : c.Sublist l) :
    c ∈ combinations c.length l := by
  induction h with
  | slnil => simp [combinations]
  | @cons l₁ l₂ a h ih =>
    match l₁, ih with
    | [], _ => simp [combinations]
    | x :: c', ih => simpa [combinations] using Or.inr ih
  | @cons₂ l₁ l₂ a h ih =>
    simpa [combinations] using Or.inl ih

theorem filter_mem_of_sublist_nodup :
    ∀ {s l : List ℕ}, s.Sublist l → l.Nodup →
      l.filter (fun i => decide (i ∈ s)) = s := by
  intro s l h
  induction h with
  | slnil => intro _; rfl
  | @cons l₁ l₂ a h ih =>
    intro hnd
    have hnd2 : l₂.Nodup := hnd.of_cons
    have ha : a ∉ l₂ := (List.nodup_cons.mp hnd).1
    have has : a ∉ l₁ := fun hmem => ha (h.subset hmem)
    simp only [List.filter_cons, decide_eq_true_eq]
    rw [if_neg (by simpa using has)]
    exact ih hnd2
  | @cons₂ l₁ l₂ a h ih =>
    intro hnd
    have hnd2 : l₂.Nodup := hnd.of_cons
    have ha : a ∉ l₂ := (List.nodup_cons.mp hnd).1
    simp only [List.filter_cons, decide_eq_true_eq]
    rw [if_pos (by simp)]
    congr 1
    rw [List.filter_congr (fun x hx => ?_), ih hnd2]
    have hxa : x ≠ a := fun he => ha (he ▸ hx)
    simp [hxa]

theorem prod_filter_mul_prod_filter_not (l : List ℕ) (p : ℕ → Bool) (g : ℕ → ℕ) :
    ((l.filter p).map g).prod * ((l.filter (fun x => !p x)).map g).prod
      = (l.map g).prod := by
  induction l with
  | nil => simp
  | cons x xs ih =>
    by_cases hx : p x = true
    · have hx2 : (!p x) = false := by simp [hx]
      simp only [List.filter_cons, hx, hx2, Bool.not_true, Bool.not_false, if_true,
        Bool.false_eq_true, if_false, List.map_cons, List.prod_cons]
      rw [← ih]; ring
    · have hx1 : p x = false := by simpa using hx
      have hx2 : (!p x) = true := by simp [hx1]
      simp only [List.filter_cons, hx1, hx2, Bool.not_true, Bool.not_false, if_true,
        Bool.false_eq_true, if_false, List.map_cons, List.prod_cons]
      rw [← ih]; ring

theorem prodInds_mul_complProd {values S : List ℕ}
    (hS : S.Sublist (List.range values.length)) :
    prodInds values S * complProd values S
      = prodInds values (List.range values.length) := by
  have hnd : (List.range values.length).Nodup := List.nodup_range _
  have hfil : (List.range values.length).filter (fun i => decide (i ∈ S)) = S :=
    filter_mem_of_sublist_nodup hS hnd
  unfold complProd
  calc prodInds values S *
      prodInds values ((List.range values.length).filter (fun i => decide (i ∉ S)))
      = prodInds values ((List.range values.length).filter (fun i => decide (i ∈ S))) *
        prodInds values ((List.range values.length).filter (fun i => !(decide (i ∈ S)))) := by
        rw [hfil]
        congr 2
        exact List.filter_congr (fun x _ => by simp)
    _ = prodInds values (List.range values.length) := by
        rw [prodInds_eq_prod, prodInds_eq_prod, prodInds_eq_prod]
        exact prod_filter_mul_prod_filter_not _ _ _

theorem prodInds_pos {values inds : List ℕ} (hpos : ∀ v ∈ values, 0 < v)
    (hlt : ∀ i ∈ inds, i < values.length) : 0 < prodInds values inds := by
  rw [prodInds_eq_prod]
  apply List.prod_pos
  intro a ha
  obtain ⟨i, hi, rfl⟩ := List.mem_map.mp ha
  have : values.getD i 0 ∈ values := by
    rw [List.getD_eq_getElem _ _ (hlt i hi)]
    exact List.getElem_mem _
  exact hpos _ this

theorem mem_mcppCandidates {values : List ℕ} {bound : ℕ} {c : List ℕ} {p : ℕ} :
    (c, p) ∈ mcppCandidates values bound ↔
      c.Sublist (List.range values.length) ∧ c ≠ [] ∧ p = prodInds values c ∧
        prodInds values (List.range values.length) ≤ bound * p := by
  unfold mcppCandidates
  simp only [List.mem_flatMap, List.mem_filterMap, List.mem_range]
  constructor
  · rintro ⟨r0, hr0, c', hc', hsome⟩
    have hpair : c' = c ∧ prodInds values c' = p ∧
        prodInds values (List.range values.length) ≤ bound * prodInds values c' := by
      by_cases hcond :
          prodInds values (List.range values.length) ≤ bound * prodInds values c'
      · rw [if_pos hcond] at hsome
        obtain ⟨h1, h2⟩ := Prod.mk.injEq .. ▸ Option.some.injEq .. ▸ hsome
        exact ⟨h1, h2, hcond⟩
      · rw [if_neg hcond] at hsome
        exact absurd hsome (Option.noConfusion)
    obtain ⟨rfl, hp, hle⟩ := hpair
    obtain ⟨hsub, hlen⟩ := mem_combinations_sublist_length _ _ _ hc'
    refine ⟨hsub, ?_, hp.symm, hp ▸ hle⟩
    intro hnil
    rw [hnil] at hlen
    exact Nat.succ_ne_zero r0 (by simpa using hlen.symm)
  · rintro ⟨hsub, hne, rfl, hle⟩
    have hlen : 1 ≤ c.length := by
      cases c with
      | nil => exact absurd rfl hne
      | cons x xs => simp
    have hlenle : c.length ≤ values.length := by
      simpa using hsub.length_le
    refine ⟨c.length - 1, ?_, c, ?_, ?_⟩
    · omega
    · have : c.length - 1 + 1 = c.length := by omega
      rw [this]
      exact mem_combinations_of_sublist hsub
    · rw [if_pos hle]

theorem mcpp_some_spec {values : List ℕ} {bound : ℕ} {S : List ℕ}
    (hgt : ¬ prodInds values (List.range values.length) ≤ bound)
    (hS : maximize_constrained_partial_product values bound = some S) :
    (S, prodInds values S) ∈ mcppCandidates values bound ∧
      ∀ c p, (c, p) ∈ mcppCandidates values bound → prodInds values S ≤ p := by
  unfold maximize_constrained_partial_product at hS
  rw [if_neg hgt] at hS
  cases hsort : (mcppCandidates values bound).insertionSort mcppLE with
  | nil => rw [hsort] at hS; simp at hS
  | cons hd tl =>
    rw [hsort] at hS
    simp only [List.head?_cons, Option.map_some'] at hS
    have hhd : hd ∈ mcppCandidates values bound := by
      have : hd ∈ (mcppCandidates values bound).insertionSort mcppLE := by
        rw [hsort]; exact List.mem_cons_self _ _
      exact (List.mem_insertionSort mcppLE).mp this
    have hp : hd.2 = prodInds values hd.1 := by
      have := mem_mcppCandidates.mp (by simpa using hhd)
      exact this.2.2.1
    have hS1 : hd.1 = S := by simpa using hS
    have hsorted : List.Sorted mcppLE (hd :: tl) := by
      rw [← hsort]; exact List.sorted_insertionSort mcppLE _
    constructor
    · have : (hd.1, hd.2) = (S, prodInds values S) := by
        rw [hS1] at hp ⊢; rw [hp]
      simpa [← this] using hhd
    · intro c p hcp
      have hmem : (c, p) ∈ (mcppCandidates values bound).insertionSort mcppLE :=
        (List.mem_insertionSort mcppLE).mpr hcp
      rw [hsort] at hmem
      rcases List.mem_cons.mp hmem with heq | htl
      · have : hd.2 = p := by rw [← heq]
        rw [← hS1, ← hp, this]
      · have := List.rel_of_sorted_cons hsorted _ htl
        rw [← hS1, ← hp]
        exact this

/-- C2: every subset returned by the partitioner is valid: the product of the
cardinalities at the indices not in the returned subset is at most the bound. -/
theorem mcpp_result_within_bound (values : List ℕ) (bound : ℕ) (S : List ℕ)
    (hpos : ∀ v ∈ values, 0 < v) (hb : 0 < bound)
    (hS : maximize_constrained_partial_product values bound = some S) :
    complProd values S ≤ bound := by
  by_cases hle : prodInds values (List.range values.length) ≤ bound
  · have hSnil : S = [] := by
      unfold maximize_constrained_partial_product at hS
      rw [if_pos hle] at hS
      simpa using hS.symm
    subst hSnil
    have : complProd values [] = prodInds values (List.range values.length) := by
      unfold complProd
      congr 1
      exact List.filter_eq_self.mpr (fun x _ => by simp)
    rw [this]
    exact hle
  · obtain ⟨hmem, _⟩ := mcpp_some_spec hle hS
    obtain ⟨hsub, hne, hp, hle2⟩ := mem_mcppCandidates.mp hmem
    have hfact := prodInds_mul_complProd hsub
    have hppos : 0 < prodInds values S := by
      apply prodInds_pos hpos
      intro i hi
      have := hsub.subset hi
      simpa using this
    have h1 : prodInds values S * complProd values S ≤ prodInds values S * bound := by
      rw [hfact]
      calc prodInds values (List.range values.length) ≤ bound * prodInds values S := hle2
        _ = prodInds values S * bound := Nat.mul_comm _ _
    exact Nat.le_of_mul_le_mul_left h1 hppos

/-- C1: the subset returned by the partitioner is minimal: no other subset of
indices whose complement product is within the bound has a strictly smaller
pinned product. -/
theorem mcpp_result_minimal (values : List ℕ) (bound : ℕ) (S T : List ℕ)
    (hpos : ∀ v ∈ values, 0 < v) (hb : 0 < bound)
    (hgt : bound < prodInds values (List.range values.length))
    (hS : maximize_constrained_partial_product values bound = some S)
    (hsub : T.Sublist (List.range values.length))
    (hvalid : complProd values T ≤ bound) :
    prodInds values S ≤ prodInds values T := by
  have hgt' : ¬ prodInds values (List.range values.length) ≤ bound := by omega
  obtain ⟨_, hmin⟩ := mcpp_some_spec hgt' hS
  have hTne : T ≠ [] := by
    intro hnil
    subst hnil
    have : complProd values [] = prodInds values (List.range values.length) := by
      unfold complProd
      congr 1
      exact List.filter_eq_self.mpr (fun x _ => by simp)
    omega
  have hTcand : (T, prodInds values T) ∈ mcppCandidates values bound := by
    rw [mem_mcppCandidates]
    refine ⟨hsub, hTne, rfl, ?_⟩
    calc prodInds values (List.range values.length)
        = prodInds values T * complProd values T := (prodInds_mul_complProd hsub).symm
      _ ≤ prodInds values T * bound := Nat.mul_le_mul_left _ hvalid
      _ = bound * prodInds values T := Nat.mul_comm _ _
  exact hmin _ _ hTcand

/-- C1 witness: at `values = [2, 3]`, `bound = 2` the partitioner returns `[1]`
(pinned product `3`), minimal against the valid subset `[0, 1]` (product `6`). -/
theorem mcpp_result_minimal_witness :
    maximize_constrained_partial_product [2, 3] 2 = some [1] ∧
      prodInds [2, 3] [1] ≤ prodInds [2, 3] [0, 1] :=
  ⟨by decide,
    mcpp_result_minimal [2, 3] 2 [1] [0, 1] (by decide) (by decide) (by decide)
      (by decide) (by decide) (by decide)⟩

/-- C2 witness: at `values = [2, 3]`, `bound = 2` the returned subset `[1]`
leaves a complement product of `2 ≤ 2`. -/
theorem mcpp_result_within_bound_witness :
    maximize_constrained_partial_product [2, 3] 2 = some [1] ∧
      complProd [2, 3] [1] ≤ 2 :=
  ⟨by decide,
    mcpp_result_within_bound [2, 3] 2 [1] (by decide) (by decide) (by decide)⟩

/-- C4: the partitioner returns the empty subset exactly when the product of
all cardinalities is at most the bound. -/
theorem mcpp_empty_iff (values : List ℕ) (bound : ℕ)
    (hpos : ∀ v ∈ values, 0 < v) (hb : 0 < bound) :
    maximize_constrained_partial_product values bound = some [] ↔
      prodInds values (List.range values.length) ≤ bound := by
  constructor
  · intro hS
    by_contra hgt
    obtain ⟨hmem, _⟩ := mcpp_some_spec hgt hS
    obtain ⟨_, hne, _, _⟩ := mem_mcppCandidates.mp hmem
    exact hne rfl
  · intro hle
    unfold maximize_constrained_partial_product
    rw [if_pos hle]

/-- C4 witness: at `values = [2, 3]` the partitioner returns the empty subset
for `bound = 7` (product `6 ≤ 7`). -/
theorem mcpp_empty_iff_witness :
    maximize_constrained_partial_product [2, 3] 7 = some [] ↔
      prodInds [2, 3] (List.range 2) ≤ 7 :=
  mcpp_empty_iff [2, 3] 7 (by decide) (by decide)

/-- C3 counterexample: the spec's concrete table `plan((1,2,3), 3) = {0}` is
wrong on the code, which returns `(1,)` (and asserts so itself). -/
theorem mcpp_concrete_counterexample :
    maximize_constrained_partial_product [1, 2, 3] 3 ≠ some [0] := by decide

/-- C3 amended: the partitioner's actual outputs on the five concrete inputs,
matching the module-level asserts in `src/scb_dl/mcpp.py`: the third and
fourth answers are `{1}` and `{2}`, not the spec's `{0}` and `{1}`. -/
theorem mcpp_concrete_outputs :
    maximize_constrained_partial_product [1] 3 = some [] ∧
      maximize_constrained_partial_product [1, 2] 3 = some [] ∧
      maximize_constrained_partial_product [1, 2, 3] 3 = some [1] ∧
      maximize_constrained_partial_product [1, 10, 5, 6] 60 = some [2] ∧
      maximize_constrained_partial_product [2, 9, 5, 7] 60 = some [0, 3] := by
  refine ⟨by decide, by decide, by decide, by decide, by decide⟩

/-- C10: totality of the partitioner.  For a non-empty list of positive
cardinalities and a bound of at least 1 with total product above the bound,
the candidate list is non-empty (the full index set qualifies) and the
function returns a non-empty subset; for a bound below 1 (here `0`) the
candidate list is empty and the indexing `s[0]` fails (`none`). -/
theorem mcpp_totality (values : List ℕ) (bound : ℕ)
    (hpos : ∀ v ∈ values, 0 < v) (hne : values ≠ []) :
    (1 ≤ bound → bound < prodInds values (List.range values.length) →
      mcppCandidates values bound ≠ [] ∧
        ∃ S, maximize_constrained_partial_product values bound = some S ∧ S ≠ []) ∧
      maximize_constrained_partial_product values 0 = none := by
  constructor
  · intro hb hgt
    have hnlen : 1 ≤ values.length := by
      cases values with
      | nil => exact absurd rfl hne
      | cons x xs => simp
    have hfull : (List.range values.length, prodInds values (List.range values.length))
        ∈ mcppCandidates values bound := by
      rw [mem_mcppCandidates]
      refine ⟨List.Sublist.refl _, ?_, rfl, ?_⟩
      · intro h0
        have h00 : values.length = 0 := List.range_eq_nil.mp h0
        omega
      · calc prodInds values (List.range values.length)
            = 1 * prodInds values (List.range values.length) := (Nat.one_mul _).symm
          _ ≤ bound * prodInds values (List.range values.length) :=
              Nat.mul_le_mul_right _ hb
    have hcne : mcppCandidates values bound ≠ [] := fun h0 => by
      rw [h0] at hfull; exact absurd hfull (List.not_mem_nil _)
    refine ⟨hcne, ?_⟩
    have hgt' : ¬ prodInds values (List.range values.length) ≤ bound := by omega
    have hsne : (mcppCandidates values bound).insertionSort mcppLE ≠ [] := by
      intro h0
      have := (List.perm_insertionSort mcppLE (mcppCandidates values bound)).length_eq
      rw [h0] at this
      cases hc : mcppCandidates values bound with
      | nil => exact hcne hc
      | cons y ys => rw [hc] at this; simp at this
    cases hsort : (mcppCandidates values bound).insertionSort mcppLE with
    | nil => exact absurd hsort hsne
    | cons hd tl =>
      refine ⟨hd.1, ?_, ?_⟩
      · unfold maximize_constrained_partial_product
        rw [if_neg hgt', hsort]
        simp
      · have hhd : hd ∈ mcppCandidates values bound := by
          have : hd ∈ (mcppCandidates values bound).insertionSort mcppLE := by
            rw [hsort]; exact List.mem_cons_self _ _
          exact (List.mem_insertionSort mcppLE).mp this
        have := mem_mcppCandidates.mp (by simpa using hhd)
        exact this.2.1
  · have hppos : 0 < prodInds values (List.range values.length) :=
      prodInds_pos hpos (fun i hi => by simpa using hi)
    have hcnil : mcppCandidates values 0 = [] := by
      rw [List.eq_nil_iff_forall_not_mem]
      rintro ⟨c, p⟩ hmem
      obtain ⟨_, _, _, hle⟩ := mem_mcppCandidates.mp hmem
      simp at hle
      omega
    unfold maximize_constrained_partial_product
    rw [if_neg (by omega), hcnil]
    rfl

/-- C10 witness: at `values = [2, 3]`, `bound = 2` the candidate list is
non-empty and a non-empty subset is returned; at `bound = 0` the function
fails (`none`). -/
theorem mcpp_totality_witness :
    (mcppCandidates [2, 3] 2 ≠ [] ∧
      ∃ S, maximize_constrained_partial_product [2, 3] 2 = some S ∧ S ≠ []) ∧
      maximize_constrained_partial_product [2, 3] 0 = none :=
  ⟨(mcpp_totality [2, 3] 2 (by decide) (by decide)).1 (by decide) (by decide),
    (mcpp_totality [2, 3] 0 (by decide) (by decide)).2⟩

/-! ## Lemmas and claims about the rate limiter -/

theorem pushQ_length_le {N : ℕ} {q : List ℚ} (t : ℚ) :
    (pushQ N q t).length ≤ N := by
  simp [pushQ]
  omega

theorem pushQ_eq_append {N : ℕ} {q : List ℚ} (t : ℚ) (h : q.length + 1 ≤ N) :
    pushQ N q t = q ++ [t] := by
  unfold pushQ
  have h0 : (q ++ [t]).length - N = 0 := by simp; omega
  rw [h0, List.drop_zero]

theorem pushQ_eq_drop_one {N : ℕ} {q : List ℚ} (t : ℚ) (h : q.length = N) :
    pushQ N q t = (q ++ [t]).drop 1 := by
  unfold pushQ
  have h0 : (q ++ [t]).length - N = 1 := by simp; omega
  rw [h0]

theorem foldl_pushQ (N : ℕ) :
    ∀ (l q : List ℚ), q.length ≤ N →
      l.foldl (pushQ N) q = (q ++ l).drop ((q ++ l).length - N)
  | [], q, h => by
    have h0 : q.length - N = 0 := Nat.sub_eq_zero_of_le h
    simp [h0]
  | t :: ts, q, h => by
    rw [List.foldl_cons, foldl_pushQ N ts (pushQ N q t) (pushQ_length_le t)]
    rcases le_or_lt (q.length + 1) N with hle | hlt
    · rw [pushQ_eq_append t hle]
      simp only [List.append_assoc, List.singleton_append]
    · have hq : q.length = N := by omega
      rw [pushQ_eq_drop_one t hq]
      have h2 : ((q ++ [t]).drop 1 ++ ts) = (q ++ t :: ts).drop 1 := by
        cases q with
        | nil => simp
        | cons x xs => simp
      rw [h2, List.drop_drop]
      congr 1
      simp only [List.length_drop, List.length_append, List.length_cons]
      omega

theorem throttleTrace_append (N : ℕ) (T m : ℚ) :
    ∀ (l₁ l₂ : List ℚ) (q : List ℚ),
      throttleTrace N T m q (l₁ ++ l₂) =
        (throttleTrace N T m q l₁ && throttleTrace N T m (l₁.foldl (pushQ N) q) l₂)
  | [], l₂, q => by simp [throttleTrace]
  | t :: ts, l₂, q => by
    simp only [List.cons_append, throttleTrace, List.append_eq, List.foldl_cons,
      throttleTrace_append N T m ts l₂ (pushQ N q t), Bool.and_assoc]

theorem throttleTrace_guard_at {N : ℕ} {T m : ℚ} {ts : List ℚ}
    (h : throttleTrace N T m [] ts = true) (g : ℕ) (hg : g < ts.length) :
    throttleGuard N T m ((ts.take g).drop (g - N)) (ts.getD g 0) = false := by
  have hsplit : ts = ts.take g ++ ts.getD g 0 :: ts.drop (g + 1) := by
    conv_lhs => rw [← List.take_append_drop g ts]
    congr 1
    rw [List.getD_eq_getElem _ _ hg]
    exact List.drop_eq_getElem_cons hg
  rw [hsplit] at h
  rw [throttleTrace_append] at h
  have h2 := (Bool.and_eq_true_iff.mp h).2
  have hfold : (ts.take g).foldl (pushQ N) [] = (ts.take g).drop (g - N) := by
    have := foldl_pushQ N (ts.take g) [] (by simp)
    simp only [List.nil_append] at this
    rw [this]
    congr 1
    rw [List.length_take]
    omega
  rw [hfold] at h2
  simp only [throttleTrace, Bool.and_eq_true_iff] at h2
  have := h2.1
  simpa using this

theorem queue_headD {N g : ℕ} {ts : List ℚ} (hg : g ≤ ts.length) (hgN : N ≤ g)
    (hN : 1 ≤ N) :
    ((ts.take g).drop (g - N)).headD 0 = ts.getD (g - N) 0 := by
  rw [List.headD_eq_head?, List.head?_eq_getElem?, List.getElem?_drop,
    List.getElem?_take, List.getD_eq_getElem?_getD]
  rw [if_pos (by omega), Nat.add_zero]

theorem queue_getLastD {N g : ℕ} {ts : List ℚ} (hg : g ≤ ts.length) (hg1 : 1 ≤ g)
    (hN : 1 ≤ N) :
    ((ts.take g).drop (g - N)).getLastD 0 = ts.getD (g - 1) 0 := by
  rw [List.getLastD_eq_getLast?, List.getLast?_eq_getElem?, List.getElem?_drop,
    List.getElem?_take, List.getD_eq_getElem?_getD]
  have hlen : ((ts.take g).drop (g - N)).length = g - (g - N) := by
    simp only [List.length_drop, List.length_take]
    omega
  rw [hlen]
  have harith : g - N + (g - (g - N) - 1) = g - 1 := by omega
  rw [harith]
  rw [if_pos (show g - 1 < g by omega)]

theorem throttle_gapN {N : ℕ} {T m : ℚ} {ts : List ℚ} (hN : 1 ≤ N)
    (h : throttleTrace N T m [] ts = true) {g : ℕ} (hg : g < ts.length)
    (hgN : N ≤ g) :
    T < ts.getD g 0 - ts.getD (g - N) 0 := by
  have hguard := throttleTrace_guard_at h g hg
  have hlen : ((ts.take g).drop (g - N)).length = N := by
    simp only [List.length_drop, List.length_take]
    omega
  rw [throttleGuard, Bool.or_eq_false_iff] at hguard
  have h1 := hguard.1
  rw [Bool.and_eq_false_iff] at h1
  rcases h1 with h1 | h1
  · rw [hlen] at h1
    simp at h1
  · rw [queue_headD (by omega) hgN hN] at h1
    rw [List.getD_eq_getElem?_getD, List.getD_eq_getElem?_getD, lt_sub_iff_add_lt]
    simpa using h1

theorem throttle_gap1 {N : ℕ} {T m : ℚ} {ts : List ℚ} (hN : 1 ≤ N)
    (h : throttleTrace N T m [] ts = true) {g : ℕ} (hg : g < ts.length)
    (hg1 : 1 ≤ g) :
    m < ts.getD g 0 - ts.getD (g - 1) 0 := by
  have hguard := throttleTrace_guard_at h g hg
  have hlen : ((ts.take g).drop (g - N)).length = g - (g - N) := by
    simp only [List.length_drop, List.length_take]
    omega
  have hne : ((ts.take g).drop (g - N)) ≠ [] := by
    intro h0
    rw [h0] at hlen
    simp at hlen
    omega
  rw [throttleGuard, Bool.or_eq_false_iff] at hguard
  have h2 := hguard.2
  rw [Bool.and_eq_false_iff] at h2
  rcases h2 with h2 | h2
  · rw [Bool.not_eq_false'] at h2
    rw [List.isEmpty_iff] at h2
    exact absurd h2 hne
  · rw [queue_getLastD (by omega) hg1 hN] at h2
    rw [List.getD_eq_getElem?_getD, List.getD_eq_getElem?_getD, lt_sub_iff_add_lt]
    simpa using h2

theorem orderEmbedding_fin_add_le {m n : ℕ} (f : Fin m ↪o Fin n) :
    ∀ (k : ℕ) (hk : k < m) (h0 : 0 < m), (f ⟨0, h0⟩ : ℕ) + k ≤ (f ⟨k, hk⟩ : ℕ)
  | 0, hk, h0 => by simp
  | k + 1, hk, h0 => by
    have ih := orderEmbedding_fin_add_le f k (by omega) h0
    have hlt : f ⟨k, by omega⟩ < f ⟨k + 1, hk⟩ := by
      rw [OrderEmbedding.lt_iff_lt]
      exact Fin.mk_lt_mk.mpr (by omega)
    have hv : (f ⟨k, by omega⟩ : ℕ) < (f ⟨k + 1, hk⟩ : ℕ) := hlt
    omega

theorem sorted_getD_mono {ts : List ℚ} (hs : ts.Sorted (fun a b => a ≤ b))
    {i j : ℕ} (hij : i ≤ j) (hj : j < ts.length) :
    ts.getD i 0 ≤ ts.getD j 0 := by
  rcases Nat.eq_or_lt_of_le hij with rfl | hlt
  · exact le_refl _
  · have := (List.pairwise_iff_getElem.mp hs) i j (by omega) hj hlt
    rw [List.getD_eq_getElem _ _ (by omega : i < ts.length),
      List.getD_eq_getElem _ _ hj]
    exact this

theorem throttle_gap_indices {N : ℕ} {T m : ℚ} {ts : List ℚ} (hN : 1 ≤ N)
    (h : throttleTrace N T m [] ts = true) (hs : ts.Sorted (fun a b => a ≤ b))
    {i j : ℕ} (hj : j < ts.length) (hij : i + N ≤ j) :
    T < ts.getD j 0 - ts.getD i 0 := by
  have h1 := throttle_gapN hN h hj (by omega)
  have h2 : ts.getD i 0 ≤ ts.getD (j - N) 0 := sorted_getD_mono hs (by omega) (by omega)
  linarith

theorem exists_gap_of_sublist {T : ℚ} {N : ℕ} {ts s : List ℚ}
    (hsub : s.Sublist ts) (hslen : s.length = N + 1)
    (hgap : ∀ i j : ℕ, j < ts.length → i + N ≤ j → T < ts.getD j 0 - ts.getD i 0) :
    ∃ x ∈ s, ∃ y ∈ s, T < y - x := by
  obtain ⟨f, hf⟩ := List.sublist_iff_exists_fin_orderEmbedding_get_eq.mp hsub
  have h0m : 0 < s.length := by omega
  have hNm : N < s.length := by omega
  have hidx : (f ⟨0, h0m⟩ : ℕ) + N ≤ (f ⟨N, hNm⟩ : ℕ) :=
    orderEmbedding_fin_add_le f N hNm h0m
  refine ⟨s.get ⟨0, h0m⟩, List.get_mem s 0 h0m, s.get ⟨N, hNm⟩,
    List.get_mem s N hNm, ?_⟩
  have hg := hgap (f ⟨0, h0m⟩ : ℕ) (f ⟨N, hNm⟩ : ℕ) (f ⟨N, hNm⟩).isLt hidx
  rw [List.getD_eq_getElem _ _ (f ⟨N, hNm⟩).isLt,
    List.getD_eq_getElem _ _ (f ⟨0, h0m⟩).isLt] at hg
  rw [hf ⟨0, h0m⟩, hf ⟨N, hNm⟩]
  simpa [List.get_eq_getElem] using hg

theorem throttle_window_count {N : ℕ} {T m : ℚ} {ts : List ℚ} (hN : 1 ≤ N)
    (h : throttleTrace N T m [] ts = true) (hs : ts.Sorted (fun a b => a ≤ b))
    (a : ℚ) :
    ts.countP (fun t => decide (a ≤ t) && decide (t ≤ a + T)) ≤ N := by
  by_contra hgt
  push_neg at hgt
  have hflen : N + 1 ≤
      (ts.filter (fun t => decide (a ≤ t) && decide (t ≤ a + T))).length := by
    rw [← List.countP_eq_length_filter]
    omega
  have hslen : ((ts.filter
      (fun t => decide (a ≤ t) && decide (t ≤ a + T))).take (N + 1)).length = N + 1 := by
    rw [List.length_take]
    omega
  have hssub : ((ts.filter
      (fun t => decide (a ≤ t) && decide (t ≤ a + T))).take (N + 1)).Sublist ts :=
    (List.take_sublist _ _).trans (List.filter_sublist ts)
  have hsmem : ∀ x ∈ (ts.filter
      (fun t => decide (a ≤ t) && decide (t ≤ a + T))).take (N + 1),
      a ≤ x ∧ x ≤ a + T := by
    intro x hx
    have hx2 : x ∈ ts.filter (fun t => decide (a ≤ t) && decide (t ≤ a + T)) :=
      (List.take_sublist _ _).subset hx
    have := (List.mem_filter.mp hx2).2
    simpa using this
  have hgapfun : ∀ i j : ℕ, j < ts.length → i + N ≤ j →
      T < ts.getD j 0 - ts.getD i 0 :=
    fun i j hj hij => throttle_gap_indices hN h hs hj hij
  obtain ⟨x, hx, y, hy, hxy⟩ := exists_gap_of_sublist hssub hslen hgapfun
  have hx2 := hsmem x hx
  have hy2 := hsmem y hy
  linarith [hx2.1, hx2.2, hy2.1, hy2.2]

/-- C5: the rate limiter's admission discipline.  For any trace of admitted
call timestamps (each admitted only when the while-guard of `throttle` is
false, with the deque updated as a `maxlen`-bounded FIFO), with a monotone
clock: no sliding window of duration `T` contains more than `N` recorded call
starts, and a call is admitted only when the oldest of the last `N` recorded
timestamps is older than `T` and the most recent is older than the minimum
spacing `m`. -/
theorem throttle_rate_limit (N : ℕ) (T m : ℚ) (ts : List ℚ)
    (hN : 1 ≤ N)
    (hvalid : throttleTrace N T m [] ts = true)
    (hsorted : ts.Sorted (fun a b => a ≤ b)) :
    (∀ a : ℚ, ts.countP (fun t => decide (a ≤ t) && decide (t ≤ a + T)) ≤ N) ∧
      (∀ g, g < ts.length → N ≤ g → T < ts.getD g 0 - ts.getD (g - N) 0) ∧
      (∀ g, g < ts.length → 1 ≤ g → m < ts.getD g 0 - ts.getD (g - 1) 0) :=
  ⟨fun a => throttle_window_count hN hvalid hsorted a,
    fun _ hg hgN => throttle_gapN hN hvalid hg hgN,
    fun _ hg hg1 => throttle_gap1 hN hvalid hg hg1⟩

/-- C5 witness: with `N = 1`, `T = 1`, `m = 0`, the trace `[0, 2]` is
admissible and satisfies the window bound and spacing conclusions. -/
theorem throttle_rate_limit_witness :
    (∀ a : ℚ,
      List.countP (fun t => decide (a ≤ t) && decide (t ≤ a + 1)) [(0 : ℚ), 2] ≤ 1) ∧
      (∀ g, g < ([(0 : ℚ), 2]).length → 1 ≤ g →
        1 < ([(0 : ℚ), 2]).getD g 0 - ([(0 : ℚ), 2]).getD (g - 1) 0) ∧
      (∀ g, g < ([(0 : ℚ), 2]).length → 1 ≤ g →
        0 < ([(0 : ℚ), 2]).getD g 0 - ([(0 : ℚ), 2]).getD (g - 1) 0) :=
  throttle_rate_limit 1 1 0 [0, 2] (by decide)
    (by norm_num [throttleTrace, throttleGuard, pushQ]) (by norm_num [List.Sorted])

/-! ## Lemmas and claims about the retry executor -/

theorem retryGo_ok {E A : Type} {op : ℕ → Except E A} {a : A}
    (clock : ℕ → ℚ) (start timeout : ℚ) (maxTries : ℕ) (k : ℕ)
    (hk : op k = .ok a) :
    retryGo op clock start timeout maxTries k = (.ok a, k + 1) := by
  rw [retryGo.eq_def, hk]

theorem retryGo_error_timeout {E A : Type} {op : ℕ → Except E A} {e : E}
    (clock : ℕ → ℚ) (start timeout : ℚ) (maxTries : ℕ) (k : ℕ)
    (hk : op k = .error e) (ht : start + timeout ≤ clock k) :
    retryGo op clock start timeout maxTries k = (.timeoutExceeded e, k + 1) := by
  rw [retryGo.eq_def, hk]
  simp only [if_pos ht]

theorem retryGo_error_exhaust {E A : Type} {op : ℕ → Except E A} {e : E}
    (clock : ℕ → ℚ) (start timeout : ℚ) (maxTries : ℕ) (k : ℕ)
    (hk : op k = .error e) (ht : ¬ start + timeout ≤ clock k)
    (hm : maxTries ≤ k + 1) :
    retryGo op clock start timeout maxTries k = (.retryExhausted e, k + 1) := by
  rw [retryGo.eq_def, hk]
  simp only [if_neg ht, if_pos hm]

theorem retryGo_error_next {E A : Type} {op : ℕ → Except E A} {e : E}
    (clock : ℕ → ℚ) (start timeout : ℚ) (maxTries : ℕ) (k : ℕ)
    (hk : op k = .error e) (ht : ¬ start + timeout ≤ clock k)
    (hm : ¬ maxTries ≤ k + 1) :
    retryGo op clock start timeout maxTries k
      = retryGo op clock start timeout maxTries (k + 1) := by
  conv_lhs => rw [retryGo.eq_def]
  rw [hk]
  simp only [if_neg ht, if_neg hm]

theorem retryGo_fail_exhausted {E A : Type} {op : ℕ → Except E A}
    {err : ℕ → E} {clock : ℕ → ℚ} {start timeout : ℚ} {maxTries : ℕ} :
    ∀ k, k < maxTries →
      (∀ i, i < maxTries → op i = .error (err i)) →
      (∀ i, i < maxTries → clock i < start + timeout) →
      retryGo op clock start timeout maxTries k
        = (.retryExhausted (err (maxTries - 1)), maxTries) := by
  intro k0 hk0 hop hclock
  suffices H : ∀ d k, k < maxTries → maxTries - k = d →
      retryGo op clock start timeout maxTries k
        = (.retryExhausted (err (maxTries - 1)), maxTries) from H _ k0 hk0 rfl
  intro d
  induction d using Nat.strong_induction_on with
  | _ d ih =>
    intro k hk hd
    by_cases hlast : maxTries ≤ k + 1
    · rw [retryGo_error_exhaust clock start timeout maxTries k (hop k hk)
        (not_le.mpr (hclock k hk)) hlast]
      have h1 : k = maxTries - 1 := by omega
      subst h1
      have h2 : maxTries - 1 + 1 = maxTries := by omega
      rw [h2]
    · rw [retryGo_error_next clock start timeout maxTries k (hop k hk)
        (not_le.mpr (hclock k hk)) hlast]
      exact ih (maxTries - (k + 1)) (by omega) (k + 1) (by omega) rfl

theorem retryGo_fail_timeout {E A : Type} {op : ℕ → Except E A}
    {err : ℕ → E} {clock : ℕ → ℚ} {start timeout : ℚ} {maxTries : ℕ} :
    ∀ k j, k ≤ j → j < maxTries →
      (∀ i, i ≤ j → op i = .error (err i)) →
      (∀ i, i < j → clock i < start + timeout) →
      start + timeout ≤ clock j →
      retryGo op clock start timeout maxTries k
        = (.timeoutExceeded (err j), j + 1) := by
  intro k0 j hkj0 hj hop hclock htj
  suffices H : ∀ d k, k ≤ j → j - k = d →
      retryGo op clock start timeout maxTries k
        = (.timeoutExceeded (err j), j + 1) from H _ k0 hkj0 rfl
  intro d
  induction d using Nat.strong_induction_on with
  | _ d ih =>
    intro k hkj hd
    by_cases hkj2 : k = j
    · subst hkj2
      exact retryGo_error_timeout clock start timeout maxTries k (hop k (le_refl k)) htj
    · have hklt : k < j := by omega
      rw [retryGo_error_next clock start timeout maxTries k (hop k (by omega))
        (not_le.mpr (hclock k hklt)) (by omega)]
      exact ih (j - (k + 1)) (by omega) (k + 1) (by omega) rfl

theorem retryGo_first_success {E A : Type} {op : ℕ → Except E A}
    {err : ℕ → E} {a : A} {clock : ℕ → ℚ} {start timeout : ℚ} {maxTries : ℕ} :
    ∀ k j, k ≤ j → j < maxTries →
      (∀ i, i < j → op i = .error (err i)) →
      op j = .ok a →
      (∀ i, i < j → clock i < start + timeout) →
      retryGo op clock start timeout maxTries k = (.ok a, j + 1) := by
  intro k0 j hkj0 hj hop hopj hclock
  suffices H : ∀ d k, k ≤ j → j - k = d →
      retryGo op clock start timeout maxTries k = (.ok a, j + 1) from H _ k0 hkj0 rfl
  intro d
  induction d using Nat.strong_induction_on with
  | _ d ih =>
    intro k hkj hd
    by_cases hkj2 : k = j
    · subst hkj2
      exact retryGo_ok clock start timeout maxTries k hopj
    · have hklt : k < j := by omega
      rw [retryGo_error_next clock start timeout maxTries k (hop k hklt)
        (not_le.mpr (hclock k hklt)) (by omega)]
      exact ih (j - (k + 1)) (by omega) (k + 1) (by omega) rfl

/-- C6: for an operation failing on every invocation, `runWithRetry` performs
exactly `maxTries` attempts and fails with `RetryExhausted` carrying the last
error provided the wall-clock timeout is not reached first; if the elapsed
time reaches the timeout first it fails with `TimeoutExceeded` after the
attempt that observed it; and a successful attempt returns its result
immediately. -/
theorem retry_spec {E A : Type} (op : ℕ → Except E A) (err : ℕ → E) (a : A)
    (clock : ℕ → ℚ) (start timeout : ℚ) (maxTries : ℕ)
    (hmax : 1 ≤ maxTries) :
    ((∀ i, i < maxTries → op i = .error (err i)) →
      ((∀ i, i < maxTries → clock i < start + timeout) →
        runWithRetry op clock start timeout maxTries
          = (.retryExhausted (err (maxTries - 1)), maxTries)) ∧
      (∀ j, j < maxTries → (∀ i, i < j → clock i < start + timeout) →
        start + timeout ≤ clock j →
        runWithRetry op clock start timeout maxTries
          = (.timeoutExceeded (err j), j + 1))) ∧
    (∀ j, j < maxTries → (∀ i, i < j → op i = .error (err i)) →
      op j = .ok a → (∀ i, i < j → clock i < start + timeout) →
      runWithRetry op clock start timeout maxTries = (.ok a, j + 1)) := by
  refine ⟨fun hop => ⟨fun hclock => ?_, fun j hj hclock htj => ?_⟩,
    fun j hj hop hopj hclock => ?_⟩
  · exact retryGo_fail_exhausted 0 (by omega) hop hclock
  · exact retryGo_fail_timeout 0 j (by omega) hj (fun i hi => hop i (by omega)) hclock htj
  · exact retryGo_first_success 0 j (by omega) hj hop hopj hclock

/-- C6 witness: with `maxTries = 2`, `timeout = 10`: an always-failing op with
a slow clock exhausts retries after 2 attempts; with the clock at the timeout
it fails with `TimeoutExceeded` after 1 attempt; an op succeeding on the
second attempt returns `ok` after 2 attempts. -/
theorem retry_spec_witness :
    runWithRetry (fun k => (.error k : Except ℕ ℕ)) (fun _ => 1) 0 10 2
        = (.retryExhausted 1, 2) ∧
      runWithRetry (fun k => (.error k : Except ℕ ℕ)) (fun _ => 10) 0 10 2
        = (.timeoutExceeded 0, 1) ∧
      runWithRetry (fun k => if k = 0 then (.error 0 : Except ℕ ℕ) else .ok 7)
          (fun _ => 1) 0 10 2
        = (.ok 7, 2) :=
  ⟨((retry_spec (fun k => (.error k : Except ℕ ℕ)) (fun i => i) 0 (fun _ => 1)
        0 10 2 (by omega)).1 (fun i _ => rfl)).1 (fun i _ => by norm_num),
    ((retry_spec (fun k => (.error k : Except ℕ ℕ)) (fun i => i) 0 (fun _ => 10)
        0 10 2 (by omega)).1 (fun i _ => rfl)).2 0 (by omega)
      (fun i hi => absurd hi (by omega)) (by norm_num),
    (retry_spec (fun k => if k = 0 then (.error 0 : Except ℕ ℕ) else .ok 7)
        (fun i => i) 7 (fun _ => 1) 0 10 2 (by omega)).2 1 (by omega)
      (fun i hi => by
        have h0 : i = 0 := by omega
        subst h0
        rfl)
      rfl (fun i _ => by norm_num)⟩

/-! ## Lemmas about the orchestrator -/

theorem cartProd_length {α : Type} :
    ∀ ls : List (List α), (cartProd ls).length = (ls.map List.length).prod
  | [] => rfl
  | l :: ls => by
    rw [cartProd, List.length_flatMap]
    have h1 : (l.map (List.length ∘ fun x => (cartProd ls).map (fun rest => x :: rest)))
        = List.replicate l.length (cartProd ls).length := by
      rw [← List.map_const]
      exact List.map_congr_left (fun a _ => by simp [Function.comp])
    rw [h1, List.sum_replicate, smul_eq_mul, cartProd_length ls]
    simp

theorem batchedGo_sum {α : Type} (n : ℕ) (f : α → ℕ) :
    ∀ l : List α,
      ((batchedGo n l).map (fun g => (g.map f).sum)).sum = (l.map f).sum := by
  suffices H : ∀ (d : ℕ) (l : List α), l.length = d →
      ((batchedGo n l).map (fun g => (g.map f).sum)).sum = (l.map f).sum from
    fun l => H l.length l rfl
  intro d
  induction d using Nat.strong_induction_on with
  | _ d ih =>
    intro l hd
    cases l with
    | nil => simp [batchedGo]
    | cons x xs =>
      rw [batchedGo]
      simp only [List.map_cons, List.sum_cons]
      rw [ih (xs.drop n).length
        (by simp only [List.length_drop]; simp only [List.length_cons] at hd; omega)
        (xs.drop n) rfl]
      have hsplit : (xs.map f).sum
          = ((xs.take n).map f).sum + ((xs.drop n).map f).sum := by
        conv_lhs => rw [← List.take_append_drop n xs]
        rw [List.map_append, List.sum_append]
      omega

theorem find?_eq_of_nodup :
    ∀ (l : List Variable), (l.map (fun v => v.code)).Nodup →
      ∀ v ∈ l, l.find? (fun w => w.code == v.code) = some v
  | [], _, v, hv => absurd hv (List.not_mem_nil v)
  | w :: l, hnd, v, hv => by
    rcases List.mem_cons.mp hv with rfl | hvl
    · rw [List.find?_cons_of_pos _ (by simp)]
    · have hne : w.code ≠ v.code := by
        intro he
        have : w.code ∈ l.map (fun v => v.code) := by
          rw [he]
          exact List.mem_map.mpr ⟨v, hvl, rfl⟩
        exact (List.nodup_cons.mp (by simpa using hnd)).1 this
      rw [List.find?_cons_of_neg _ (by simpa using hne)]
      exact find?_eq_of_nodup l (List.nodup_cons.mp (by simpa using hnd)).2 v hvl

theorem valuesForCode_keyVar {info : Info} {d : ℕ}
    (hnd : (info.vars.map (fun v => v.code)).Nodup)
    (hd : d < (keyVars info).length) :
    valuesForCode info (((keyVars info).map (fun v => v.code)).getD d "")
      = ((keyVars info).get ⟨d, hd⟩).values := by
  have hcode : ((keyVars info).map (fun v => v.code)).getD d ""
      = ((keyVars info).get ⟨d, hd⟩).code := by
    rw [List.getD_eq_getElem _ _ (by simpa using hd)]
    simp
  rw [hcode]
  have hv : (keyVars info).get ⟨d, hd⟩ ∈ info.vars :=
    (List.filter_sublist info.vars).subset (List.get_mem _ _ _)
  rw [valuesForCode, find?_eq_of_nodup info.vars hnd _ hv]
  rfl

theorem pinAssignments_length {info : Info} {dims : List ℕ}
    (hnd : (info.vars.map (fun v => v.code)).Nodup)
    (hdims : ∀ d ∈ dims, d < (keyVars info).length) :
    (pinAssignments info dims).length = prodInds (keyCards info) dims := by
  rw [pinAssignments, cartProd_length, prodInds_eq_prod, codesToIterate,
    List.map_map, List.map_map]
  congr 1
  apply List.map_congr_left
  intro d hdmem
  have hd := hdims d hdmem
  simp only [Function.comp]
  rw [valuesForCode_keyVar hnd hd]
  rw [keyCards, List.getD_eq_getElem _ _ (by simpa using hd)]
  simp


theorem mcpp_some_sublist {values : List ℕ} {bound : ℕ} {S : List ℕ}
    (hS : maximize_constrained_partial_product values bound = some S) :
    S.Sublist (List.range values.length) := by
  by_cases hle : prodInds values (List.range values.length) ≤ bound
  · unfold maximize_constrained_partial_product at hS
    rw [if_pos hle] at hS
    have h0 : S = [] := by simpa using hS.symm
    rw [h0]
    exact List.nil_sublist _
  · exact (mem_mcppCandidates.mp (mcpp_some_spec hle hS).1).1

theorem dimsToIterate_sublist {info : Info} {vf : ℕ} {dims : List ℕ}
    (h : dimsToIterate info vf = some dims) :
    dims.Sublist (List.range (keyCards info).length) := by
  unfold dimsToIterate at h
  by_cases hc : MAX_CELLS < tableSize info vf
  · rw [if_pos hc] at h
    exact mcpp_some_sublist h
  · rw [if_neg hc] at h
    have h0 : dims = [] := by simpa using h.symm
    rw [h0]
    exact List.nil_sublist _

theorem prodInds_range (values : List ℕ) :
    prodInds values (List.range values.length) = values.prod := by
  rw [prodInds_eq_prod]
  congr 1
  apply List.ext_getElem
  · simp
  · intro n h1 h2
    simp [List.getElem?_eq_getElem h2]

/-- C7: the pre-flight time-budget check.  When the estimate
`table_size / (MAX_CELLS * 1)` exceeds the budget, `get_data` yields only the
`None` sentinel (the caller reports `TimeBudgetExceeded`) and issues zero
fetch calls; otherwise it proceeds and fetches every pin assignment. -/
theorem get_data_time_budget (info : Info) (fetchRows : List String → ℕ)
    (maxT : ℚ) (vf : ℕ) (dims : List ℕ)
    (hvf : valueFields info = some vf)
    (hdims : dimsToIterate info vf = some dims) :
    (maxT < (tableSize info vf : ℚ) / ((MAX_CELLS : ℚ) * 1) →
      get_data info fetchRows maxT = some ⟨[.noneSentinel], []⟩) ∧
      (¬ maxT < (tableSize info vf : ℚ) / ((MAX_CELLS : ℚ) * 1) →
        ∃ r, get_data info fetchRows maxT = some r ∧
          r.calls = pinAssignments info dims) := by
  constructor
  · intro hover
    simp only [get_data, hvf, hdims, if_pos hover]
  · intro hunder
    refine ⟨⟨(if (batched (pinAssignments info dims) 90).isEmpty then []
        else [Emitted.schemaOnce]) ++
        (batched (pinAssignments info dims) 90).map
          (fun g => Emitted.rowBatch ((g.map fetchRows).sum)),
      pinAssignments info dims⟩, ?_, rfl⟩
    simp only [get_data, hvf, hdims, if_neg hunder]

/-- C8: conservation of rows.  If every fetched chunk has as many rows as the
product of the unpinned key-dimension cardinalities, the total number of rows
across all emitted row batches equals the product of all key-dimension
cardinalities (`table_rows`). -/
theorem get_data_total_rows (info : Info) (fetchRows : List String → ℕ)
    (maxT : ℚ) (vf : ℕ) (dims : List ℕ)
    (hvf : valueFields info = some vf) (hvfpos : 0 < vf)
    (hnd : (info.vars.map (fun v => v.code)).Nodup)
    (hdims : dimsToIterate info vf = some dims)
    (hbudget : ¬ maxT < (tableSize info vf : ℚ) / ((MAX_CELLS : ℚ) * 1))
    (hfetch : ∀ a ∈ pinAssignments info dims,
      fetchRows a = complProd (keyCards info) dims) :
    ∃ r, get_data info fetchRows maxT = some r ∧ totalRows r = tableRows info := by
  have hsub : dims.Sublist (List.range (keyCards info).length) :=
    dimsToIterate_sublist hdims
  refine ⟨⟨(if (batched (pinAssignments info dims) 90).isEmpty then []
      else [Emitted.schemaOnce]) ++
      (batched (pinAssignments info dims) 90).map
        (fun g => Emitted.rowBatch ((g.map fetchRows).sum)),
    pinAssignments info dims⟩, ?_, ?_⟩
  · simp only [get_data, hvf, hdims, if_neg hbudget]
  · rw [totalRows]
    simp only [List.map_append, List.sum_append, List.map_map]
    have hfirst : ((if (batched (pinAssignments info dims) 90).isEmpty then []
        else [Emitted.schemaOnce]).map
          (fun e => match e with | .rowBatch n => n | _ => 0)).sum = 0 := by
      by_cases hemp : (batched (pinAssignments info dims) 90).isEmpty
      · rw [if_pos hemp]
        rfl
      · rw [if_neg hemp]
        rfl
    rw [hfirst]
    have hcomp : ((fun e => match e with | Emitted.rowBatch n => n | _ => 0) ∘
        (fun g => Emitted.rowBatch ((g.map fetchRows).sum)))
          = fun g : List (List String) => (g.map fetchRows).sum := by
      funext g
      rfl
    rw [hcomp]
    have hbatched : batched (pinAssignments info dims) 90
        = batchedGo 89 (pinAssignments info dims) := rfl
    rw [hbatched, batchedGo_sum 89 fetchRows (pinAssignments info dims)]
    have hconst : (pinAssignments info dims).map fetchRows
        = List.replicate (pinAssignments info dims).length
            (complProd (keyCards info) dims) := by
      rw [← List.map_const]
      exact List.map_congr_left (fun a ha => hfetch a ha)
    rw [hconst, List.sum_replicate, smul_eq_mul,
      pinAssignments_length hnd (fun d hd => by
        have := hsub.subset hd
        simp only [List.mem_range] at this
        simpa [keyCards] using this),
      prodInds_mul_complProd hsub, prodInds_range]
    rw [Nat.zero_add]
    rfl


/-- C7 witness: for a 2x3-key-dimension table with one content field
(`tableSize = 6`), a zero budget trips the pre-flight check (sentinel, zero
calls) while a budget of 1 second lets the fetch proceed over all (here: one)
pin assignments. -/
theorem get_data_time_budget_witness :
    ((0 : ℚ) < (tableSize infoEx 1 : ℚ) / ((MAX_CELLS : ℚ) * 1) ∧
      get_data infoEx (fun _ => 6) 0 = some ⟨[.noneSentinel], []⟩) ∧
      (¬ (1 : ℚ) < (tableSize infoEx 1 : ℚ) / ((MAX_CELLS : ℚ) * 1) ∧
        ∃ r, get_data infoEx (fun _ => 6) 1 = some r ∧
          r.calls = pinAssignments infoEx []) := by
  have hvf : valueFields infoEx = some 1 := by decide
  have hdims : dimsToIterate infoEx 1 = some [] := by decide
  have hover : (0 : ℚ) < (tableSize infoEx 1 : ℚ) / ((MAX_CELLS : ℚ) * 1) := by
    rw [show tableSize infoEx 1 = 6 from by decide, show MAX_CELLS = 107762 from rfl]
    norm_num
  have hunder : ¬ (1 : ℚ) < (tableSize infoEx 1 : ℚ) / ((MAX_CELLS : ℚ) * 1) := by
    rw [show tableSize infoEx 1 = 6 from by decide, show MAX_CELLS = 107762 from rfl]
    norm_num
  exact ⟨⟨hover,
      (get_data_time_budget infoEx (fun _ => 6) 0 1 [] hvf hdims).1 hover⟩,
    ⟨hunder,
      (get_data_time_budget infoEx (fun _ => 6) 1 1 [] hvf hdims).2 hunder⟩⟩

/-- C8 witness: the same table, fetched in one chunk of 6 rows, emits 6 =
`tableRows` rows in total. -/
theorem get_data_total_rows_witness :
    ∃ r, get_data infoEx (fun _ => 6) 1 = some r ∧ totalRows r = tableRows infoEx := by
  have hunder : ¬ (1 : ℚ) < (tableSize infoEx 1 : ℚ) / ((MAX_CELLS : ℚ) * 1) := by
    rw [show tableSize infoEx 1 = 6 from by decide, show MAX_CELLS = 107762 from rfl]
    norm_num
  exact get_data_total_rows infoEx (fun _ => 6) 1 1 [] (by decide) (by decide)
    (by decide) (by decide) hunder (by decide)

/-! ## Claims about value decoding -/

/-- C9 counterexample: for the time-type column `Tid` and the raw value
`kvartal1` (no integer shape), with the dimension lookup mapping `kvartal1`
to `Q1`, `parse_value` returns the looked-up label `Q1` rather than passing
the raw value through unchanged. -/
theorem parse_value_counterexample :
    parse_value lookupEx ⟨"Tid", "t"⟩ "kvartal1" = .strVal "Q1" ∧
      (PyValue.strVal "Q1") ≠ (.strVal "kvartal1") := by
  refine ⟨by decide, by decide⟩

/-- C9 amended: the missing-data sentinel `..` decodes to null for every
column type; a time-type value of integer shape is parsed as an integer; a
time-type value without integer shape is decoded through the per-dimension
lookup (label on hit, `KeyError` on miss), not passed through unchanged. -/
theorem parse_value_time_spec (lookup : String → String → Option String)
    (column : Column) (value : String) :
    (value = ".." → parse_value lookup column value = .null) ∧
      (column.type = "t" → value ≠ ".." →
        ((∀ n, pyInt? value = some n → parse_value lookup column value = .intVal n) ∧
          (pyInt? value = none →
            parse_value lookup column value =
              match lookup column.code value with
              | some t => .strVal t
              | none => .keyError))) := by
  constructor
  · intro hv
    rw [parse_value, if_pos hv]
  · intro ht hv
    have hc : ¬ column.type = "c" := by rw [ht]; decide
    constructor
    · intro n hn
      rw [parse_value, if_neg hv, if_neg hc, if_pos ht, hn]
    · intro hn
      rw [parse_value, if_neg hv, if_neg hc, if_pos ht, hn]

/-- C9 witness: on the `Tid` time column, the sentinel gives null, `2024`
parses as the integer 2024, and the non-integer `kvartal1` is decoded through
the lookup to `Q1`. -/
theorem parse_value_time_spec_witness :
    parse_value lookupEx ⟨"Tid", "t"⟩ ".." = .null ∧
      parse_value lookupEx ⟨"Tid", "t"⟩ "2024" = .intVal 2024 ∧
      parse_value lookupEx ⟨"Tid", "t"⟩ "kvartal1" = .strVal "Q1" :=
  ⟨(parse_value_time_spec lookupEx ⟨"Tid", "t"⟩ "..").1 rfl,
    ((parse_value_time_spec lookupEx ⟨"Tid", "t"⟩ "2024").2 rfl
      (by decide)).1 2024 (by decide),
    by
      have h := ((parse_value_time_spec lookupEx ⟨"Tid", "t"⟩ "kvartal1").2 rfl
        (by decide)).2 (by decide)
      rw [h]
      decide⟩
